import Mathlib

/-!
Verification of `src/dice.rs` (mkpass).

A shallow embedding of the two components of `src/dice.rs`:

* `CandidateDice` with `from_sides_and_limit` (lines 12-32) and
  `ordered_for_limit` (lines 34-43) — the die selector;
* `FastDiceRoller` (lines 63-177) — the bounded uniform sampler
  (`new`, `power_of_two`, `non_power_of_two`, and `Iterator::next`).

Modelling conventions:

* Machine integers (`u32`) become `Nat`.  Where the source performs
  arithmetic whose u32 overflow is observable (the accumulator updates in
  `power_of_two`, the product `cx * draw` in `non_power_of_two`, and
  `sides.pow(rolls)` in the die scorer), the model reduces modulo
  `U32SIZE = 2 ^ 32`, the wrapping behaviour of the released binary
  (with overflow checks enabled the program would abort instead; every
  theorem below that touches these operations either holds under both
  semantics because the relevant return sites are guarded by
  comparisons, or carries an explicit no-overflow hypothesis).
  Subtractions in the source are only reached when the subtrahend is
  bounded by the minuend, so `Nat` truncated subtraction agrees with u32.
* `f32`/`f64` values: `reroll_pct` and `average_rolls` (`f32` in the
  source) are modelled as exact rationals `Rat`; the comparisons the
  code performs on them (sorting keys) are decided by margins far larger
  than any accumulated `f32` rounding error for the concrete inputs used
  in the theorems below.  `modulus_bits = (modulus as f64).log2()` is
  used by the source only for (a) the power-of-two classification test
  `modulus_bits.floor() == modulus_bits`, which for `1 ≤ modulus < 2^32`
  holds iff `modulus` is an exact power of two (the f64 rounding of an
  irrational `log2` cannot be an integer: the distance from `log2 m` to
  the nearest integer exceeds `2^-32`, far above the `2^-47` ulp), and
  (b) the bit counter bound in `power_of_two`, where it equals the exact
  integer `Nat.log2 modulus`.  Both uses are modelled via `Nat.log2`.
* The bounded uniform source (`read_dice`, lines 93-110: prompt a human,
  parse, shift `1..=modulus` to `0..modulus`) is an external collaborator;
  it is modelled as a list of the values it returns, already in
  `[0, modulus)`.  An exhausted list models a source that never answers
  (the source aborts the process in that case), giving `none`.
* The source's `loop`s can retry forever, so every loop takes explicit
  fuel; `none` means the computation was still running (or blocked on the
  source) when the fuel ran out.  Theorems about returned values are
  stated for arbitrary fuel.
-/

/-- u32 wrap-around modulus. -/
def U32SIZE : Nat := 2 ^ 32

/-! ## Die selector (`src/dice.rs` lines 1-44) -/

/-- Catalog `COMMON_DICE` (line 1): the fixed die face counts. -/
def COMMON_DICE : List Nat := [3, 4, 6, 8, 10, 12, 20, 30, 100]

/-- Structure `CandidateDice` (lines 3-9).  `reroll_pct` and `average_rolls` are
`f32` in the source, modelled as exact rationals (see header). -/
structure CandidateDice where
  sides : Nat
  rolls : Nat
  reroll_pct : Rat
  average_rolls : Rat
deriving DecidableEq, Repr

/-- The `loop` of `from_sides_and_limit` (lines 13-21), with its running
`rolls` counter and explicit fuel: compute `total = sides.pow(rolls)`,
stop as soon as `total >= limit`, otherwise increment `rolls`.  On
success it builds the record of lines 23-31.  The power is computed in
u32 — wrapping multiplications compose to a single `% U32SIZE` — which
is the behaviour with overflow checks disabled (with them enabled an
overflowing `pow` aborts instead). -/
def fromSidesGo (sides limit : Nat) : Nat → Nat → Option CandidateDice
  | 0, _ => none
  | fuel + 1, rolls =>
    let total := sides ^ rolls % U32SIZE
    if limit ≤ total then
      let overshoot := total - limit
      let reroll_pct : Rat := (overshoot : Rat) / (total : Rat)
      some ⟨sides, rolls, reroll_pct, (rolls : Rat) + (rolls : Rat) * reroll_pct⟩
    else fromSidesGo sides limit fuel (rolls + 1)

/-- Function `CandidateDice::from_sides_and_limit` (lines 12-32): the loop starts
at `rolls = 1`. -/
def CandidateDice.from_sides_and_limit (sides limit fuel : Nat) : Option CandidateDice :=
  fromSidesGo sides limit fuel 1

/-- The sort key order of `ordered_for_limit` (line 41):
`(OrderedFloat(average_rolls), sides)` compared lexicographically. -/
def dice_le (a b : CandidateDice) : Prop :=
  a.average_rolls < b.average_rolls ∨
    (a.average_rolls = b.average_rolls ∧ a.sides ≤ b.sides)

instance : DecidableRel dice_le := fun _ _ =>
  inferInstanceAs (Decidable (_ ∨ _))

instance : IsTotal CandidateDice dice_le where
  total a b := by
    rcases lt_trichotomy a.average_rolls b.average_rolls with h | h | h
    · exact Or.inl (Or.inl h)
    · rcases Nat.le_total a.sides b.sides with hs | hs
      · exact Or.inl (Or.inr ⟨h, hs⟩)
      · exact Or.inr (Or.inr ⟨h.symm, hs⟩)
    · exact Or.inr (Or.inl h)

instance : IsTrans CandidateDice dice_le where
  trans a b c hab hbc := by
    rcases hab with hab | ⟨hab, hab2⟩
    · rcases hbc with hbc | ⟨hbc, _⟩
      · exact Or.inl (hab.trans hbc)
      · exact Or.inl (hbc ▸ hab)
    · rcases hbc with hbc | ⟨hbc, hbc2⟩
      · exact Or.inl (hab ▸ hbc)
      · exact Or.inr ⟨hab.trans hbc, hab2.trans hbc2⟩

/-- The `collect` of lines 35-39: map `from_sides_and_limit` over a list
of face counts, propagating the fuel artifact. -/
def candidates (limit fuel : Nat) : List Nat → Option (List CandidateDice)
  | [] => some []
  | s :: rest =>
    match CandidateDice.from_sides_and_limit s limit fuel, candidates limit fuel rest with
    | some cd, some l => some (cd :: l)
    | _, _ => none

/-- Function `CandidateDice::ordered_for_limit` (lines 34-43): build one candidate
per catalog entry and sort by `(OrderedFloat(average_rolls), sides)`.
Rust's stable `sort_by_key` is modelled by insertion sort with the same
key order (also stable; the keys here are distinct anyway since `sides`
is part of the key and the catalog has no duplicates). -/
def CandidateDice.ordered_for_limit (limit fuel : Nat) : Option (List CandidateDice) :=
  (candidates limit fuel COMMON_DICE).map (List.insertionSort dice_le)

/-! ## Bounded uniform sampler (`src/dice.rs` lines 46-177) -/

/-- Enum `FastDiceRollerKind` (lines 46-52). -/
inductive FastDiceRollerKind where
  | Zero
  | Direct
  | PowerOfTwo
  | NonPowerOfTwo
deriving DecidableEq, Repr

/-- Fuelled worker for `nat_log2` (structural recursion, so that the
kernel can evaluate it; `Nat.log2` itself is defined by well-founded
recursion and does not reduce definitionally). -/
def log2Go : Nat → Nat → Nat
  | 0, _ => 0
  | fuel + 1, n => if 2 ≤ n then log2Go fuel (n / 2) + 1 else 0

/-- Floor of `log2 n`, the integer value of the source's `modulus_bits` for a
power-of-two modulus (and the bit count `k` of the power-of-two method).
Proved equal to `Nat.log2` in `nat_log2_eq` below. -/
def nat_log2 (n : Nat) : Nat := log2Go n n

theorem log2Go_eq (fuel n : Nat) (h : n ≤ fuel) : log2Go fuel n = Nat.log2 n := by
  induction fuel generalizing n with
  | zero =>
    interval_cases n
    simp [log2Go, Nat.log2]
  | succ fuel ih =>
    rw [log2Go, Nat.log2]
    by_cases h2 : 2 ≤ n
    · rw [if_pos h2, if_pos h2, ih]
      omega
    · rw [if_neg h2, if_neg h2]

theorem nat_log2_eq (n : Nat) : nat_log2 n = Nat.log2 n := log2Go_eq n n le_rfl

/-- The classification of `FastDiceRoller::new` (lines 75-83).  The float
test `modulus_bits.floor() == modulus_bits` is modelled by
`2 ^ nat_log2 modulus = modulus` (see header; exact for `1 ≤ modulus`). -/
def classify (max_inclusive modulus : Nat) : FastDiceRollerKind :=
  if max_inclusive = 0 then .Zero
  else if max_inclusive = modulus - 1 then .Direct
  else if 2 ^ nat_log2 modulus = modulus then .PowerOfTwo
  else .NonPowerOfTwo

/-- Structure `FastDiceRoller` (lines 63-68).  `modulus_bits` is recomputed as
`nat_log2 modulus` where needed instead of being stored. -/
structure FastDiceRoller where
  modulus : Nat
  max_inclusive : Nat
  kind : FastDiceRollerKind
deriving DecidableEq, Repr

/-- Constructor `FastDiceRoller::new` (lines 72-91): classify and store; there is no
validation of `modulus` and no access to the source. -/
def FastDiceRoller.new (max_inclusive modulus : Nat) : FastDiceRoller :=
  ⟨modulus, max_inclusive, classify max_inclusive modulus⟩

/-- One answer of the bounded source (`read_dice`, lines 93-110), already
shifted into `[0, modulus)`: the head of the list of pending answers. -/
def read_dice : List Nat → Option (Nat × List Nat)
  | [] => none
  | d :: rest => some (d, rest)

/-- The `loop` of `power_of_two` (lines 118-135), with state
`x y next_bit rngv` and the pending source answers.  Each iteration:
refill `rngv` from the source once all `modulus_bits` bits are counted
(line 119-122), then `x *= 2`, `y = y * 2 + rngv % 2`, `next_bit += 1`
(lines 124-126; u32, hence the `% U32SIZE`), then the fold-back /
return step of lines 128-134.  Note the source never shifts `rngv`, so
`rngv % 2` re-reads the same lowest bit of the current answer at every
iteration of the same refill window. -/
def power_of_two (max_inclusive k : Nat) :
    Nat → Nat → Nat → Nat → Nat → List Nat → Option (Nat × List Nat)
  | 0, _, _, _, _, _ => none
  | fuel + 1, x, y, next_bit, rngv, draws =>
    match (if k ≤ next_bit then (read_dice draws).map (fun p => (0, p.1, p.2))
           else some (next_bit, rngv, draws) : Option (Nat × Nat × List Nat)) with
    | none => none
    | some (nb, rv, ds) =>
      if max_inclusive < x * 2 % U32SIZE then
        if (y * 2 + rv % 2) % U32SIZE ≤ max_inclusive then
          some ((y * 2 + rv % 2) % U32SIZE, ds)
        else
          power_of_two max_inclusive k fuel
            (x * 2 % U32SIZE - max_inclusive - 1)
            ((y * 2 + rv % 2) % U32SIZE - max_inclusive - 1) (nb + 1) rv ds
      else
        power_of_two max_inclusive k fuel
          (x * 2 % U32SIZE) ((y * 2 + rv % 2) % U32SIZE) (nb + 1) rv ds

/-- The `max_inclusive < modulus` loop of `non_power_of_two`
(lines 139-150): draw; return the draw if below `n_plus_one`; return
`draw % n_plus_one` if below `max_exc`; otherwise retry. -/
def npot_small (max_inclusive modulus : Nat) : Nat → List Nat → Option (Nat × List Nat)
  | 0, _ => none
  | fuel + 1, draws =>
    match read_dice draws with
    | none => none
    | some (ret, rest) =>
      let n_plus_one := max_inclusive + 1
      let max_exc := (modulus - 1) / n_plus_one * n_plus_one
      if ret < n_plus_one then some (ret, rest)
      else if ret < max_exc then some (ret % n_plus_one, rest)
      else npot_small max_inclusive modulus fuel rest

/-- One draw of the sampler: the body of `Iterator::next` (lines 169-176)
together with the branch bodies it dispatches to.  The classification is
recomputed from `(max_inclusive, modulus)`; for any roller built by
`FastDiceRoller.new` this equals the stored `kind`.  The
`max_inclusive >= modulus` branch of `non_power_of_two` (lines 151-162)
is inlined here because it recursively samples a low digit from
`FastDiceRoller::new(cx - 1, modulus)` against the same source; its
`loop` retries by re-entering `sample` at the same
`(max_inclusive, modulus)` (the classification is deterministic, so this
re-entry is the same computation as the source's in-place `loop`).
`ret.checked_add(low)` succeeds exactly when the sum fits in u32. -/
def sample : Nat → Nat → Nat → List Nat → Option (Nat × List Nat)
  | 0, _, _, _ => none
  | fuel + 1, max_inclusive, modulus, draws =>
    match classify max_inclusive modulus with
    | .Zero => some (0, draws)
    | .Direct => read_dice draws
    | .PowerOfTwo =>
      power_of_two max_inclusive (nat_log2 modulus) (fuel + 1)
        1 0 (nat_log2 modulus) 0 draws
    | .NonPowerOfTwo =>
      if max_inclusive < modulus then npot_small max_inclusive modulus (fuel + 1) draws
      else
        match read_dice draws with
        | none => none
        | some (hi, rest) =>
          match sample fuel (max_inclusive / modulus + 1 - 1) modulus rest with
          | none => none
          | some (low, rest2) =>
            if (max_inclusive / modulus + 1) * hi % U32SIZE + low < U32SIZE then
              if (max_inclusive / modulus + 1) * hi % U32SIZE + low ≤ max_inclusive then
                some ((max_inclusive / modulus + 1) * hi % U32SIZE + low, rest2)
              else sample fuel max_inclusive modulus rest2
            else sample fuel max_inclusive modulus rest2

/-- Method `Iterator::next` (lines 166-177): the outer `Option` is the fuel /
blocked-source artifact of the embedding; the inner `Option Nat` is the
Rust `Option<Self::Item>` return value, which line 170 builds with
`Some(...)` around the branch result. -/
def FastDiceRoller.next (r : FastDiceRoller) (draws : List Nat) (fuel : Nat) :
    Option (Option Nat × List Nat) :=
  (sample fuel r.max_inclusive r.modulus draws).map (fun p => (some p.1, p.2))

/-- The per-draw acceptance function of the `max_inclusive < modulus`
branch of `non_power_of_two` (lines 143-149): which output, if any, a
single source answer is turned into. -/
def smallAccept (max_inclusive modulus d : Nat) : Option Nat :=
  if d < max_inclusive + 1 then some d
  else if d < (modulus - 1) / (max_inclusive + 1) * (max_inclusive + 1) then
    some (d % (max_inclusive + 1))
  else none

/-! ## Basic lemmas about the embedding -/

theorem read_dice_some {draws : List Nat} {d : Nat} {rest : List Nat}
    (h : read_dice draws = some (d, rest)) : draws = d :: rest := by
  cases draws with
  | nil => simp [read_dice] at h
  | cons a l =>
    simp [read_dice] at h
    rw [h.1, h.2]

theorem classify_eq_direct {m M : Nat} (h : classify m M = .Direct) : m = M - 1 := by
  unfold classify at h
  split_ifs at h
  all_goals simp_all

theorem classify_eq_zero {m M : Nat} (h : classify m M = .Zero) : m = 0 := by
  unfold classify at h
  split_ifs at h
  all_goals simp_all

theorem classify_npot {m M : Nat} (h0 : m ≠ 0) (h1 : m ≠ M - 1)
    (h2 : 2 ^ nat_log2 M ≠ M) : classify m M = .NonPowerOfTwo := by
  unfold classify
  rw [if_neg h0, if_neg h1, if_neg h2]

/-- Any value returned by the power-of-two loop is within range (the only
return site, line 130, is guarded by `y <= self.max_inclusive`), and the
loop hands back a suffix of the pending source answers. -/
theorem power_of_two_spec (max_inclusive k : Nat) :
    ∀ fuel x y next_bit rngv draws v rest,
      power_of_two max_inclusive k fuel x y next_bit rngv draws = some (v, rest) →
      v ≤ max_inclusive ∧ rest <:+ draws := by
  intro fuel
  induction fuel with
  | zero =>
    intro x y next_bit rngv draws v rest h
    simp [power_of_two] at h
  | succ fuel ih =>
    intro x y next_bit rngv draws v rest h
    rw [power_of_two] at h
    split at h
    · exact absurd h (by simp)
    next nb rv ds hstep =>
    have hds : ds <:+ draws := by
      by_cases hk : k ≤ next_bit
      · rw [if_pos hk] at hstep
        cases draws with
        | nil => simp [read_dice] at hstep
        | cons a l =>
          simp [read_dice] at hstep
          rw [← hstep.2.2]
          exact List.suffix_cons a l
      · rw [if_neg hk] at hstep
        simp at hstep
        rw [← hstep.2.2]
    split at h
    · split at h
      · rw [Option.some_inj, Prod.mk.injEq] at h
        obtain ⟨hv, hr⟩ := h
        subst hv hr
        exact ⟨by assumption, hds⟩
      · obtain ⟨h1, h2⟩ := ih _ _ _ _ _ _ _ h
        exact ⟨h1, h2.trans hds⟩
    · obtain ⟨h1, h2⟩ := ih _ _ _ _ _ _ _ h
      exact ⟨h1, h2.trans hds⟩

/-- Any value returned by the `max_inclusive < modulus` rejection loop of
`non_power_of_two` is within range (both return sites, lines 145 and 148,
produce a value `< max_inclusive + 1`), and the loop hands back a suffix
of the pending source answers. -/
theorem npot_small_spec (max_inclusive modulus : Nat) :
    ∀ fuel draws v rest,
      npot_small max_inclusive modulus fuel draws = some (v, rest) →
      v ≤ max_inclusive ∧ rest <:+ draws := by
  intro fuel
  induction fuel with
  | zero =>
    intro draws v rest h
    simp [npot_small] at h
  | succ fuel ih =>
    intro draws v rest h
    rw [npot_small] at h
    split at h
    · exact absurd h (by simp)
    next ret rest1 hread =>
    have hrest1 : rest1 <:+ draws := by
      rw [read_dice_some hread]
      exact List.suffix_cons ret rest1
    simp only at h
    split at h
    next hlt =>
      rw [Option.some_inj, Prod.mk.injEq] at h
      obtain ⟨hv, hr⟩ := h
      subst hv hr
      exact ⟨by omega, hrest1⟩
    split at h
    next =>
      rw [Option.some_inj, Prod.mk.injEq] at h
      obtain ⟨hv, hr⟩ := h
      subst hv hr
      refine ⟨?_, hrest1⟩
      have := Nat.mod_lt ret (y := max_inclusive + 1) (by omega)
      omega
    next =>
      obtain ⟨h1, h2⟩ := ih _ _ _ h
      exact ⟨h1, h2.trans hrest1⟩

/-- Any value returned by one draw of the sampler is within range, and
the pending source answers after the draw are a suffix of those before
(the sampler only ever pops answers from the front). -/
theorem sample_spec :
    ∀ fuel max_inclusive modulus draws v rest, 2 ≤ modulus →
      (∀ d ∈ draws, d < modulus) →
      sample fuel max_inclusive modulus draws = some (v, rest) →
      v ≤ max_inclusive ∧ rest <:+ draws := by
  intro fuel
  induction fuel with
  | zero =>
    intro m M draws v rest _ _ h
    simp [sample] at h
  | succ fuel ih =>
    intro m M draws v rest hM hb h
    rw [sample] at h
    split at h
    · rw [Option.some_inj, Prod.mk.injEq] at h
      obtain ⟨hv, hr⟩ := h
      subst hv hr
      exact ⟨Nat.zero_le _, List.suffix_refl _⟩
    next hcl =>
      have hm := classify_eq_direct hcl
      have hd := read_dice_some h
      subst hm
      constructor
      · have hmem : v ∈ draws := by
          rw [hd]
          exact List.mem_cons_self v rest
        have := hb v hmem
        omega
      · rw [hd]
        exact List.suffix_cons v rest
    · exact power_of_two_spec m (nat_log2 M) _ _ _ _ _ _ _ _ h
    next hcl =>
      split at h
      · exact npot_small_spec m M _ _ _ _ h
      next hnotlt =>
        split at h
        · exact absurd h (by simp)
        next hi rest1 hread =>
        have hd := read_dice_some hread
        have hrest1 : rest1 <:+ draws := by
          rw [hd]
          exact List.suffix_cons hi rest1
        have hbrest1 : ∀ d ∈ rest1, d < M := fun d hdm => hb d (hrest1.subset hdm)
        split at h
        · exact absurd h (by simp)
        next low rest2 hlow =>
        obtain ⟨hlow1, hlow2⟩ := ih _ _ _ _ _ hM hbrest1 hlow
        have hrest2 : rest2 <:+ draws := hlow2.trans hrest1
        have hbrest2 : ∀ d ∈ rest2, d < M := fun d hdm => hb d (hrest2.subset hdm)
        split at h
        · split at h
          next hle =>
            rw [Option.some_inj, Prod.mk.injEq] at h
            obtain ⟨hv, hr⟩ := h
            subst hv hr
            exact ⟨hle, hrest2⟩
          next =>
            obtain ⟨h1, h2⟩ := ih _ _ _ _ _ hM hbrest2 h
            exact ⟨h1, h2.trans hrest2⟩
        · obtain ⟨h1, h2⟩ := ih _ _ _ _ _ hM hbrest2 h
          exact ⟨h1, h2.trans hrest2⟩

/-! ## Claim theorems -/

/-- Claim C1 (confirmed): for every sampler state with `modulus ≥ 2` and
any `max_inclusive`, and every sequence of source draws each in
`[0, modulus)`, every value returned by `Iterator::next` satisfies
`0 ≤ value ≤ max_inclusive` (the lower bound is inherent to the `Nat`
model of u32), in all four classification branches. -/
theorem c1_range_containment (max_inclusive modulus fuel : Nat) (draws : List Nat)
    (v : Nat) (rest : List Nat) (hmod : 2 ≤ modulus)
    (hdraws : ∀ d ∈ draws, d < modulus)
    (h : (FastDiceRoller.new max_inclusive modulus).next draws fuel = some (some v, rest)) :
    0 ≤ v ∧ v ≤ max_inclusive := by
  simp only [FastDiceRoller.next, FastDiceRoller.new] at h
  cases hs : sample fuel max_inclusive modulus draws with
  | none => rw [hs] at h; simp at h
  | some p =>
    rw [hs] at h
    simp only [Option.map_some'] at h
    rw [Option.some_inj, Prod.mk.injEq] at h
    obtain ⟨hv, hr⟩ := h
    rw [Option.some_inj] at hv
    have hspec := sample_spec fuel max_inclusive modulus draws p.1 p.2 hmod hdraws (by rw [hs])
    exact ⟨Nat.zero_le _, hv ▸ hspec.1⟩

/-- Witness for C1 at `max_inclusive = 3`, `modulus = 6`, draws `[2]`. -/
theorem c1_range_containment_witness :
    2 ≤ 6 ∧ (∀ d ∈ [2], d < 6) ∧
      (FastDiceRoller.new 3 6).next [2] 5 = some (some 2, []) ∧ 0 ≤ 2 ∧ 2 ≤ 3 :=
  ⟨by decide, by decide, by decide,
    c1_range_containment 3 6 5 [2] 2 [] (by decide) (by decide) (by decide)⟩

/-- Claim C2 (code bug): the golden run of the power-of-two method with
`modulus = 8`, `max_inclusive = 5` and source draws `7, 2, 5`.
Hand-tracing the claimed method (each draw supplies `k = 3` distinct
fresh bits, consumed one at a time) gives the first output `5` after
consuming the draws `7` and `2`.  The code instead evaluates
`y = y * 2 + rngv % 2` without ever shifting `rngv` (line 125), so every
iteration of a refill window appends the *same* lowest bit of the
current draw; on this input it returns `4`, with draw `5` still
pending. -/
theorem c2_power_of_two_golden_run :
    sample 20 5 8 [7, 2, 5] = some (4, [5]) := by decide

/-- Claim C10 (confirmed): whenever an `Iterator::next` call completes,
the Rust-level `Option<u32>` it returns is `Some` (line 170 wraps every
branch result in `Some`); no termination is ever signalled through it. -/
theorem c10_next_always_some (r : FastDiceRoller) (draws : List Nat) (fuel : Nat)
    (o : Option Nat) (rest : List Nat) (h : r.next draws fuel = some (o, rest)) :
    o.isSome = true := by
  unfold FastDiceRoller.next at h
  cases hs : sample fuel r.max_inclusive r.modulus draws with
  | none => rw [hs] at h; simp at h
  | some p =>
    rw [hs] at h
    simp only [Option.map_some'] at h
    rw [Option.some_inj, Prod.mk.injEq] at h
    rw [← h.1]
    rfl

/-- Witness for C10 at the `Zero` classification. -/
theorem c10_next_always_some_witness :
    (FastDiceRoller.new 0 6).next [] 1 = some (some 0, []) ∧
      (some 0 : Option Nat).isSome = true :=
  ⟨by decide, c10_next_always_some (FastDiceRoller.new 0 6) [] 1 (some 0) [] (by decide)⟩

/-- Counterexample to claim C5: constructing a sampler with
`modulus = 1 < 2` is not rejected — `FastDiceRoller::new` performs no
validation (lines 72-91 contain no check and no failure path), returns a
classified sampler (`modulus = 1` classifies as `PowerOfTwo` since
`log2 1 = 0` is integral), and sampling then proceeds: with the all-zero
source (the only possible answers for `modulus = 1`) it returns `0`. -/
theorem c5_new_does_not_validate_modulus :
    FastDiceRoller.new 5 1 = ⟨1, 5, FastDiceRollerKind.PowerOfTwo⟩ ∧
      sample 10 5 1 [0, 0, 0] = some (0, []) := by decide

/-- Claim C5 (corrected): construction with `modulus < 2` does *not*
fail fast; `new` is total, performs no precondition check and consumes
no source draw (it takes no source at all), and for `modulus = 1` and
any `max_inclusive ≥ 1` it classifies the sampler as `PowerOfTwo`
(with `k = 0`), after which sampling consumes the source. -/
theorem c5_amended_new_total (max_inclusive : Nat) (h : 1 ≤ max_inclusive) :
    (FastDiceRoller.new max_inclusive 1).kind = FastDiceRollerKind.PowerOfTwo := by
  simp only [FastDiceRoller.new, classify]
  rw [if_neg (by omega), if_neg (by omega), if_pos (by decide)]

/-- Witness for the amended C5 at `max_inclusive = 7`. -/
theorem c5_amended_new_total_witness :
    1 ≤ 7 ∧ (FastDiceRoller.new 7 1).kind = FastDiceRollerKind.PowerOfTwo :=
  ⟨by decide, c5_amended_new_total 7 (by decide)⟩

/-- Counterexample to claim C4: when the u32 product `cx * hi` itself
overflows, the combination is *not* `cx * high_draw + low_draw` and an
over-range combination is *not* discarded.  With
`max_inclusive = 2^32 - 1` and `modulus = 3000000`, `cx = 1432`; on the
draw `hi = 2999999` the true product `1432 * 2999999 = 4295998568`
exceeds `u32::MAX` and the true combination (with `low = 0`) exceeds
`max_inclusive`, so the claim mandates a discard-and-retry — but the
code wraps the product to `1031272`, the checked addition then succeeds,
and the sampler returns the silently wrapped value `1031272` (with
overflow checks enabled it would abort instead; either way, not the
claimed behaviour). -/
theorem c4_wrapped_product_returned :
    4294967295 / 3000000 + 1 = 1432 ∧
      U32SIZE ≤ 1432 * 2999999 ∧
      4294967295 < 1432 * 2999999 + 0 ∧
      sample 10 4294967295 3000000 [2999999, 0] = some (1432 * 2999999 % U32SIZE, []) ∧
      1432 * 2999999 % U32SIZE = 1031272 := by decide

/-- Claim C4 (corrected): in the large-range regime
(`max_inclusive ≥ modulus`, `NonPowerOfTwo` classification), *provided
the u32 product `cx * hi` does not overflow*, one loop iteration draws
the high digit `hi` first, samples the low digit recursively through a
sampler for `[0, cx - 1]` with `cx = ⌊max_inclusive / modulus⌋ + 1`
against the same source, combines the two as `cx * hi + low`, returns
the combination when it is `≤ max_inclusive`, and otherwise discards the
whole combination and retries on the remaining draws (a sum overflowing
the checked u32 addition is such a discard, since
`max_inclusive < 2^32`).  When the product does overflow, the release
code instead wraps it silently and can return a wrapped value
(`c4_wrapped_product_returned`). -/
theorem c4_large_range_decomposition (fuel max_inclusive modulus hi low : Nat)
    (rest rest2 : List Nat)
    (hmod : 2 ≤ modulus) (hge : modulus ≤ max_inclusive)
    (hnp : 2 ^ nat_log2 modulus ≠ modulus)
    (hmax : max_inclusive < U32SIZE)
    (hfit : (max_inclusive / modulus + 1) * hi < U32SIZE)
    (hlow : sample fuel (max_inclusive / modulus + 1 - 1) modulus rest = some (low, rest2)) :
    sample (fuel + 1) max_inclusive modulus (hi :: rest) =
      if (max_inclusive / modulus + 1) * hi + low ≤ max_inclusive then
        some ((max_inclusive / modulus + 1) * hi + low, rest2)
      else sample fuel max_inclusive modulus rest2 := by
  have hcl : classify max_inclusive modulus = .NonPowerOfTwo :=
    classify_npot (by omega) (by omega) hnp
  rw [sample, hcl]
  simp only [read_dice]
  rw [if_neg (by omega), hlow]
  simp only
  rw [Nat.mod_eq_of_lt hfit]
  by_cases hcase : (max_inclusive / modulus + 1) * hi + low < U32SIZE
  · rw [if_pos hcase]
  · rw [if_neg hcase, if_neg (by omega)]

/-- Witness for C4 at `max_inclusive = 1000`, `modulus = 6`, high draw
`3`, recursive low digit `151` (obtained from the draws `5, 2, 1`). -/
theorem c4_large_range_decomposition_witness :
    sample 5 (1000 / 6 + 1 - 1) 6 [5, 2, 1] = some (151, []) ∧
      sample 6 1000 6 (3 :: [5, 2, 1]) =
        (if (1000 / 6 + 1) * 3 + 151 ≤ 1000 then
          some ((1000 / 6 + 1) * 3 + 151, ([] : List Nat))
        else sample 5 1000 6 []) :=
  ⟨by decide,
    c4_large_range_decomposition 5 1000 6 3 151 [5, 2, 1] []
      (by decide) (by decide) (by decide) (by decide) (by decide) (by decide)⟩

/-- Counterexample to claim C9: an intermediate accumulator exceeding
machine width is *not* a hard failure.  With `max_inclusive = 2^32 - 1`
and `modulus = 100000`, `cx = 42950`; the first combination
`cx * 99999 + 42949 = 4294999999` exceeds `u32::MAX`, yet the sampler
carries on (the failed `checked_add` merely discards the combination)
and returns `5` from the following draws. -/
theorem c9_overflow_is_retried_not_fatal :
    4294967295 / 100000 + 1 = 42950 ∧
      U32SIZE ≤ 42950 * 99999 + 42949 ∧
      sample 10 4294967295 100000 [99999, 42949, 0, 5] = some (5, []) := by decide

/-- Claim C9 (corrected): in the large-range combination the checked u32
addition detects an overflowing combined value `cx * hi + low` and the
sampler then discards the whole combination and retries on the remaining
draws — a retry, not a hard failure, and never a silently wrapped return
value.  (The product `cx * hi` itself and `sides^rolls` in the die
scoring use plain u32 arithmetic, which is *not* checked: it aborts only
when the build enables overflow checks and wraps otherwise.) -/
theorem c9_amended_checked_add_retries (fuel max_inclusive modulus hi low : Nat)
    (rest rest2 : List Nat)
    (hmod : 2 ≤ modulus) (hge : modulus ≤ max_inclusive)
    (hnp : 2 ^ nat_log2 modulus ≠ modulus)
    (hlow : sample fuel (max_inclusive / modulus + 1 - 1) modulus rest = some (low, rest2))
    (hoverflow : U32SIZE ≤ (max_inclusive / modulus + 1) * hi % U32SIZE + low) :
    sample (fuel + 1) max_inclusive modulus (hi :: rest) =
      sample fuel max_inclusive modulus rest2 := by
  have hcl : classify max_inclusive modulus = .NonPowerOfTwo :=
    classify_npot (by omega) (by omega) hnp
  rw [sample, hcl]
  simp only [read_dice]
  rw [if_neg (by omega), hlow]
  simp only
  rw [if_neg (by omega)]

/-- Witness for the amended C9 at the same overflowing input as the
counterexample: the overflowing first combination reduces to a retry on
the remaining two draws. -/
theorem c9_amended_checked_add_retries_witness :
    sample 9 (4294967295 / 100000 + 1 - 1) 100000 [42949, 0, 5] = some (42949, [0, 5]) ∧
      U32SIZE ≤ (4294967295 / 100000 + 1) * 99999 % U32SIZE + 42949 ∧
      sample 10 4294967295 100000 (99999 :: [42949, 0, 5]) =
        sample 9 4294967295 100000 [0, 5] :=
  ⟨by decide, by decide,
    c9_amended_checked_add_retries 9 4294967295 100000 99999 42949 [42949, 0, 5] [0, 5]
      (by decide) (by decide) (by decide) (by decide) (by decide)⟩

/-- Counting helper: among the naturals below `q * n`, exactly `q` of
them are congruent to `v (mod n)`, for each residue `v < n`. -/
theorem card_range_mul_filter_mod (n q v : Nat) (hv : v < n) :
    ((Finset.range (q * n)).filter (fun d => d % n = v)).card = q := by
  have hn : 0 < n := by omega
  have himg : (Finset.range (q * n)).filter (fun d => d % n = v) =
      (Finset.range q).image (fun j => n * j + v) := by
    ext d
    simp only [Finset.mem_filter, Finset.mem_range, Finset.mem_image]
    constructor
    · rintro ⟨hdlt, hdmod⟩
      refine ⟨d / n, (Nat.div_lt_iff_lt_mul hn).mpr hdlt, ?_⟩
      rw [← hdmod]
      exact Nat.div_add_mod d n
    · rintro ⟨j, hj, rfl⟩
      refine ⟨?_, ?_⟩
      · calc n * j + v < n * (j + 1) := by rw [Nat.mul_add, Nat.mul_one]; omega
          _ ≤ n * q := Nat.mul_le_mul_left n hj
          _ = q * n := Nat.mul_comm n q
      · rw [Nat.mul_add_mod]
        exact Nat.mod_eq_of_lt hv
  rw [himg, Finset.card_image_of_injective _ ?_, Finset.card_range]
  intro a b hab
  exact Nat.eq_of_mul_eq_mul_left hn (Nat.add_right_cancel hab)

/-- The accepted draws mapping to a fixed output `v` in the
`max_inclusive < modulus` branch are exactly the `d < max_exc` congruent
to `v` modulo `n_plus_one` (for reachable states `max_exc ≥ n_plus_one`,
so the first bucket `d < n_plus_one` contributes its unique member). -/
theorem smallAccept_count (max_inclusive modulus v : Nat)
    (h0 : 0 < max_inclusive) (hlt : max_inclusive + 1 < modulus)
    (hv : v < max_inclusive + 1) :
    ((Finset.range modulus).filter
        (fun x => smallAccept max_inclusive modulus x = some v)).card =
      (modulus - 1) / (max_inclusive + 1) := by
  have hn : 0 < max_inclusive + 1 := by omega
  have hq1 : 1 ≤ (modulus - 1) / (max_inclusive + 1) :=
    (Nat.one_le_div_iff hn).mpr (by omega)
  have hqn_le : (modulus - 1) / (max_inclusive + 1) * (max_inclusive + 1) ≤ modulus - 1 :=
    Nat.div_mul_le_self _ _
  have hset : (Finset.range modulus).filter
        (fun x => smallAccept max_inclusive modulus x = some v) =
      (Finset.range ((modulus - 1) / (max_inclusive + 1) * (max_inclusive + 1))).filter
        (fun d => d % (max_inclusive + 1) = v) := by
    ext d
    simp only [Finset.mem_filter, Finset.mem_range]
    constructor
    · rintro ⟨hdm, hacc⟩
      unfold smallAccept at hacc
      split_ifs at hacc with h1 h2
      · rw [Option.some_inj] at hacc
        subst hacc
        refine ⟨?_, Nat.mod_eq_of_lt h1⟩
        calc d < max_inclusive + 1 := h1
          _ = 1 * (max_inclusive + 1) := (Nat.one_mul _).symm
          _ ≤ (modulus - 1) / (max_inclusive + 1) * (max_inclusive + 1) :=
            Nat.mul_le_mul_right _ hq1
      · rw [Option.some_inj] at hacc
        exact ⟨h2, hacc⟩
    · rintro ⟨hdlt, hdmod⟩
      refine ⟨by omega, ?_⟩
      unfold smallAccept
      by_cases h1 : d < max_inclusive + 1
      · rw [if_pos h1, Option.some_inj]
        rw [Nat.mod_eq_of_lt h1] at hdmod
        exact hdmod
      · rw [if_neg h1, if_pos hdlt, Option.some_inj]
        exact hdmod
  rw [hset, card_range_mul_filter_mod (max_inclusive + 1) _ v hv]

/-- Claim C3 (confirmed): in the non-power-of-two single-draw regime
(reachable exactly when `0 < max_inclusive` and `max_inclusive + 1 <
modulus`, since `max_inclusive = modulus - 1` classifies as `Direct`),
one loop iteration returns a draw `< n` as-is, returns `draw % n` for a
draw in `[n, max_exc)`, and discards and retries any other draw
(`smallAccept` is exactly this per-draw classification); `max_exc` is a
whole number of blocks of size `n`; and every output `v < n` has exactly
the same number `max_exc / n = ⌊(modulus - 1) / n⌋` of accepted source
draws mapping to it. -/
theorem c3_small_range_per_draw_and_uniformity
    (max_inclusive modulus fuel d v : Nat) (rest : List Nat)
    (h0 : 0 < max_inclusive) (hlt : max_inclusive + 1 < modulus)
    (hv : v < max_inclusive + 1) :
    (npot_small max_inclusive modulus (fuel + 1) (d :: rest) =
      match smallAccept max_inclusive modulus d with
      | some w => some (w, rest)
      | none => npot_small max_inclusive modulus fuel rest) ∧
    (max_inclusive + 1) ∣ (modulus - 1) / (max_inclusive + 1) * (max_inclusive + 1) ∧
    ((Finset.range modulus).filter
        (fun x => smallAccept max_inclusive modulus x = some v)).card =
      (modulus - 1) / (max_inclusive + 1) := by
  refine ⟨?_, Dvd.intro _ (Nat.mul_comm _ _), smallAccept_count _ _ _ h0 hlt hv⟩
  rw [npot_small]
  simp only [read_dice, smallAccept]
  by_cases h1 : d < max_inclusive + 1
  · simp only [if_pos h1]
  · simp only [if_neg h1]
    by_cases h2 : d < (modulus - 1) / (max_inclusive + 1) * (max_inclusive + 1)
    · simp only [if_pos h2]
    · simp only [if_neg h2]

/-- Witness for C3 at `max_inclusive = 2`, `modulus = 7`, draw `5`,
output `1`: the draw `5 ∈ [3, 6)` is reduced to `5 % 3 = 2`, and each
output in `[0, 3)` has exactly `⌊6/3⌋ = 2` accepted preimages. -/
theorem c3_small_range_witness :
    (npot_small 2 7 4 [5] =
      match smallAccept 2 7 5 with
      | some w => some (w, ([] : List Nat))
      | none => npot_small 2 7 3 []) ∧
    (2 + 1) ∣ (7 - 1) / (2 + 1) * (2 + 1) ∧
    ((Finset.range 7).filter (fun x => smallAccept 2 7 x = some 1)).card =
      (7 - 1) / (2 + 1) :=
  c3_small_range_per_draw_and_uniformity 2 7 3 5 1 [] (by decide) (by decide) (by decide)

/-- Any record the `from_sides_and_limit` loop returns carries the
requested `sides` in its `sides` field, whatever the limit and however
the u32 powers wrap. -/
theorem fromSidesGo_sides (sides limit : Nat) :
    ∀ fuel rolls cd, fromSidesGo sides limit fuel rolls = some cd →
      cd.sides = sides := by
  intro fuel
  induction fuel with
  | zero =>
    intro rolls cd h
    simp [fromSidesGo] at h
  | succ fuel ih =>
    intro rolls cd h
    rw [fromSidesGo] at h
    simp only at h
    split at h
    · rw [Option.some_inj] at h
      subst h
      rfl
    · exact ih (rolls + 1) cd h

/-- Invariant of the `from_sides_and_limit` loop under the no-overflow
side condition `sides * limit ≤ 2^32`: every u32 power the loop computes
then equals the true power (`sides^rolls < sides * limit` as long as
`sides^(rolls-1) < limit`), so any record it returns carries the given
`sides`, a positive `rolls`, a `total = sides^rolls` that reached
`limit`, and — unless `rolls` is still the initial `1` — a previous
power `sides^(rolls-1)` that had not reached `limit`. -/
theorem fromSidesGo_spec (sides limit : Nat) (hl : 2 ≤ limit)
    (hfit : sides * limit ≤ U32SIZE) :
    ∀ fuel rolls cd, 1 ≤ rolls → (rolls = 1 ∨ sides ^ (rolls - 1) < limit) →
      fromSidesGo sides limit fuel rolls = some cd →
      cd.sides = sides ∧ 1 ≤ cd.rolls ∧ limit ≤ sides ^ cd.rolls ∧
        (cd.rolls = 1 ∨ sides ^ (cd.rolls - 1) < limit) := by
  intro fuel
  induction fuel with
  | zero =>
    intro rolls cd _ _ h
    simp [fromSidesGo] at h
  | succ fuel ih =>
    intro rolls cd hr hinv h
    have hpow : sides ^ rolls < U32SIZE := by
      rcases Nat.eq_zero_or_pos sides with hz | hp
      · subst hz
        rw [Nat.zero_pow (by omega)]
        decide
      · rcases hinv with h1 | h1
        · subst h1
          calc sides ^ 1 = sides * 1 := by rw [pow_one, Nat.mul_one]
            _ < sides * limit := mul_lt_mul_of_pos_left (by omega) hp
            _ ≤ U32SIZE := hfit
        · have hexp : rolls - 1 + 1 = rolls := by omega
          calc sides ^ rolls = sides ^ (rolls - 1 + 1) := by rw [hexp]
            _ = sides ^ (rolls - 1) * sides := pow_succ sides (rolls - 1)
            _ < limit * sides := mul_lt_mul_of_pos_right h1 hp
            _ = sides * limit := Nat.mul_comm _ _
            _ ≤ U32SIZE := hfit
    rw [fromSidesGo] at h
    simp only at h
    rw [Nat.mod_eq_of_lt hpow] at h
    split at h
    next hle =>
      rw [Option.some_inj] at h
      subst h
      exact ⟨rfl, hr, hle, hinv⟩
    next hgt =>
      refine ih (rolls + 1) cd (by omega) (Or.inr ?_) h
      simpa using Nat.lt_of_not_le hgt

/-- Counterexample to claim C7: at `sides = 2`, `limit = 1` the loop
stops at its initial `rolls = 1`, but `sides^(rolls-1) = 2^0 = 1 < 1`
is false — `rolls = 1` is not minimal there (`2^0 ≥ 1` already). -/
theorem c7_minimality_fails_at_limit_one :
    CandidateDice.from_sides_and_limit 2 1 10 = some ⟨2, 1, 1/2, 3/2⟩ ∧
      ¬ (2 : Nat) ^ (1 - 1) < 1 := by
  constructor
  · norm_num [CandidateDice.from_sides_and_limit, fromSidesGo, U32SIZE]
  · decide

/-- Second failure mode of claim C7, scoping its amendment: at
`sides = 6`, `limit = 2200000000` the u32 powers wrap (`6^13`, `6^14`,
`6^15` reduce below `limit` modulo `2^32`), so the loop runs on to
`rolls = 16` (wrapped total `3611361280 ≥ limit`) although `rolls = 13`
is minimal (`6^13 = 13060694016 ≥ limit` already). -/
theorem from_sides_wraps_at_large_limit :
    (CandidateDice.from_sides_and_limit 6 2200000000 20).map (fun cd => cd.rolls) =
        some 16 ∧
      2200000000 ≤ 6 ^ 13 := by
  constructor
  · decide
  · decide

/-- Claim C7 (corrected): for every `CandidateDice` computed from
`sides ≥ 2` and `limit ≥ 2` whose u32 powers do not overflow — the side
condition `sides * limit ≤ 2^32` guarantees every power the loop
computes stays below `2^32` — `rolls` is minimal: `sides^rolls ≥ limit`
and `sides^(rolls-1) < limit`.  Outside this the claim fails twice over:
at `limit = 1` (and `limit = 0`) the loop still reports its starting
value `rolls = 1` even though `sides^0 ≥ limit` already
(`c7_minimality_fails_at_limit_one`), and at limits large enough for
`sides.pow` to wrap, the wrapped loop overshoots the minimal roll count
(`from_sides_wraps_at_large_limit`). -/
theorem c7_rolls_minimal (sides limit fuel : Nat) (cd : CandidateDice)
    (_hs : 2 ≤ sides) (hl : 2 ≤ limit) (hfit : sides * limit ≤ U32SIZE)
    (h : CandidateDice.from_sides_and_limit sides limit fuel = some cd) :
    limit ≤ sides ^ cd.rolls ∧ sides ^ (cd.rolls - 1) < limit := by
  obtain ⟨h1, h2, h3, h4⟩ :=
    fromSidesGo_spec sides limit hl hfit fuel 1 cd le_rfl (Or.inl rfl) h
  refine ⟨h3, ?_⟩
  rcases h4 with h4 | h4
  · rw [h4]
    simpa using hl
  · exact h4

/-- Witness for the amended C7 at `sides = 6`, `limit = 7776`
(`6^5 = 7776` exactly, and `6 * 7776 ≤ 2^32`). -/
theorem c7_rolls_minimal_witness :
    CandidateDice.from_sides_and_limit 6 7776 10 = some ⟨6, 5, 0, 5⟩ ∧
      (7776 ≤ 6 ^ (5 : Nat) ∧ 6 ^ (5 - 1 : Nat) < 7776) :=
  have heq : CandidateDice.from_sides_and_limit 6 7776 10 = some ⟨6, 5, 0, 5⟩ := by
    norm_num [CandidateDice.from_sides_and_limit, fromSidesGo, U32SIZE]
  ⟨heq, c7_rolls_minimal 6 7776 10 ⟨6, 5, 0, 5⟩ (by decide) (by decide) (by decide) heq⟩

/-- Counterexample to claim C6: at `limit = 0` the ranking function
succeeds, but every returned candidate has `rolls = 1`, not `rolls = 0`
(the loop of lines 13-21 starts at `rolls = 1` and `total >= 0` holds
immediately). -/
theorem c6_limit_zero_rolls_are_one_not_zero :
    (CandidateDice.ordered_for_limit 0 5).map (fun l => l.map (fun d => d.rolls)) =
        some [1, 1, 1, 1, 1, 1, 1, 1, 1] ∧
      (CandidateDice.ordered_for_limit 0 5).map
          (fun l => l.all (fun d => d.rolls == 0)) = some false := by
  constructor
  · norm_num [CandidateDice.ordered_for_limit, candidates,
      CandidateDice.from_sides_and_limit, fromSidesGo, U32SIZE, List.insertionSort,
      List.orderedInsert, dice_le, COMMON_DICE]
  · norm_num [CandidateDice.ordered_for_limit, candidates,
      CandidateDice.from_sides_and_limit, fromSidesGo, U32SIZE, List.insertionSort,
      List.orderedInsert, dice_le, COMMON_DICE]

/-- Claim C6 (corrected): for `limit = 0` the ranking is degenerate and
does not fail, but every returned `CandidateDie` has `rolls = 1` (one
roll of any die already reaches `total ≥ 0`), not `rolls = 0`. -/
theorem c6_amended_limit_zero_rolls_one :
    (CandidateDice.ordered_for_limit 0 5).isSome = true ∧
      (CandidateDice.ordered_for_limit 0 5).map
        (fun l => l.all (fun d => d.rolls == 1)) = some true := by
  constructor
  · norm_num [CandidateDice.ordered_for_limit, candidates,
      CandidateDice.from_sides_and_limit, fromSidesGo, U32SIZE, COMMON_DICE]
  · norm_num [CandidateDice.ordered_for_limit, candidates,
      CandidateDice.from_sides_and_limit, fromSidesGo, U32SIZE, List.insertionSort,
      List.orderedInsert, dice_le, COMMON_DICE]

/-- Every list of candidates built by `candidates` carries the requested
face counts, in catalog order. -/
theorem candidates_sides (limit fuel : Nat) :
    ∀ (xs : List Nat) (l : List CandidateDice),
      candidates limit fuel xs = some l → l.map (fun d => d.sides) = xs := by
  intro xs
  induction xs with
  | nil =>
    intro l h
    simp [candidates] at h
    subst h
    rfl
  | cons s rest ih =>
    intro l h
    rw [candidates] at h
    cases hcd : CandidateDice.from_sides_and_limit s limit fuel with
    | none =>
      rw [hcd] at h
      exact Option.noConfusion h
    | some cd =>
      cases hrest : candidates limit fuel rest with
      | none =>
        rw [hcd, hrest] at h
        exact Option.noConfusion h
      | some l0 =>
        rw [hcd, hrest] at h
        have h' : some (cd :: l0) = some l := h
        rw [Option.some_inj] at h'
        subst h'
        have hsides := fromSidesGo_sides s limit fuel 1 cd hcd
        rw [List.map_cons, hsides, ih l0 hrest]

/-- Counterexample to claim C8: for `limit = 7776` the first entry of
the ranking is the 100-sided die (`average_rolls = 2.4448`), not the
6-sided die (`average_rolls = 5`): the sort is ascending by
`(average_rolls, sides)` and five dice have a smaller expected number of
physical rolls than the d6 despite its exact fit. -/
theorem c8_six_sided_not_first :
    (CandidateDice.ordered_for_limit 7776 20).map
        (fun l => l.head?.map (fun d => d.sides)) = some (some 100) := by
  norm_num [CandidateDice.ordered_for_limit, candidates,
    CandidateDice.from_sides_and_limit, fromSidesGo, U32SIZE, List.insertionSort,
    List.orderedInsert, dice_le, COMMON_DICE]

/-- Claim C8 (corrected): for every limit the ranking returns exactly one
`CandidateDie` per catalog face count (the face counts of the result are
a permutation of the catalog), sorted ascending lexicographically by
`(average_rolls, sides)`; for `limit = 7776` with the default catalog the
concrete order is `100, 20, 10, 6, 30, 12, 8, 4, 3` — the 100-sided die
is first (`rolls = 2`), and the 6-sided die (`rolls = 5`,
`reroll_pct = 0`) is fourth, not first. -/
theorem c8_ranking_sorted_and_concrete :
    (∀ limit fuel l, CandidateDice.ordered_for_limit limit fuel = some l →
        List.Sorted dice_le l ∧ (l.map (fun d => d.sides)).Perm COMMON_DICE) ∧
      (CandidateDice.ordered_for_limit 7776 20).map
          (fun l => l.map (fun d => (d.sides, d.rolls, d.reroll_pct))) =
        some [(100, 2, (139 : Rat)/625), (20, 3, 7/250), (10, 4, 139/625), (6, 5, 0),
          (30, 3, 89/125), (12, 4, 5/8), (8, 5, 781/1024), (4, 7, 269/512),
          (3, 9, 49/81)] := by
  constructor
  · intro limit fuel l h
    unfold CandidateDice.ordered_for_limit at h
    cases hc : candidates limit fuel COMMON_DICE with
    | none =>
      rw [hc] at h
      exact Option.noConfusion h
    | some l0 =>
      rw [hc] at h
      simp only [Option.map_some'] at h
      rw [Option.some_inj] at h
      subst h
      refine ⟨List.sorted_insertionSort dice_le l0, ?_⟩
      have hperm := List.perm_insertionSort dice_le l0
      rw [← candidates_sides limit fuel COMMON_DICE l0 hc]
      exact hperm.map (fun d => d.sides)
  · norm_num [CandidateDice.ordered_for_limit, candidates,
      CandidateDice.from_sides_and_limit, fromSidesGo, U32SIZE, List.insertionSort,
      List.orderedInsert, dice_le, COMMON_DICE]

/-- Witness for the amended C8, applying its universal part at
`limit = 7776`, `fuel = 20` and the concrete ranked list. -/
theorem c8_ranking_sorted_and_concrete_witness :
    CandidateDice.ordered_for_limit 7776 20 =
        some [⟨100, 2, 139/625, 1528/625⟩, ⟨20, 3, 7/250, 771/250⟩,
          ⟨10, 4, 139/625, 3056/625⟩, ⟨6, 5, 0, 5⟩, ⟨30, 3, 89/125, 642/125⟩,
          ⟨12, 4, 5/8, 13/2⟩, ⟨8, 5, 781/1024, 9025/1024⟩,
          ⟨4, 7, 269/512, 5467/512⟩, ⟨3, 9, 49/81, 130/9⟩] ∧
      (List.Sorted dice_le
          [⟨100, 2, 139/625, 1528/625⟩, ⟨20, 3, 7/250, 771/250⟩,
            ⟨10, 4, 139/625, 3056/625⟩, ⟨6, 5, 0, 5⟩, ⟨30, 3, 89/125, 642/125⟩,
            ⟨12, 4, 5/8, 13/2⟩, ⟨8, 5, 781/1024, 9025/1024⟩,
            ⟨4, 7, 269/512, 5467/512⟩, ⟨3, 9, 49/81, 130/9⟩] ∧
        (List.map (fun d : CandidateDice => d.sides)
            [⟨100, 2, 139/625, 1528/625⟩, ⟨20, 3, 7/250, 771/250⟩,
              ⟨10, 4, 139/625, 3056/625⟩, ⟨6, 5, 0, 5⟩, ⟨30, 3, 89/125, 642/125⟩,
              ⟨12, 4, 5/8, 13/2⟩, ⟨8, 5, 781/1024, 9025/1024⟩,
              ⟨4, 7, 269/512, 5467/512⟩, ⟨3, 9, 49/81, 130/9⟩]).Perm COMMON_DICE) :=
  have heq : CandidateDice.ordered_for_limit 7776 20 =
      some [⟨100, 2, 139/625, 1528/625⟩, ⟨20, 3, 7/250, 771/250⟩,
        ⟨10, 4, 139/625, 3056/625⟩, ⟨6, 5, 0, 5⟩, ⟨30, 3, 89/125, 642/125⟩,
        ⟨12, 4, 5/8, 13/2⟩, ⟨8, 5, 781/1024, 9025/1024⟩,
        ⟨4, 7, 269/512, 5467/512⟩, ⟨3, 9, 49/81, 130/9⟩] := by
    norm_num [CandidateDice.ordered_for_limit, candidates,
      CandidateDice.from_sides_and_limit, fromSidesGo, U32SIZE, List.insertionSort,
      List.orderedInsert, dice_le, COMMON_DICE]
  ⟨heq, c8_ranking_sorted_and_concrete.1 7776 20 _ heq⟩
